import Mathlib

/-!
Shallow embedding of the timeq persistent priority queue, checked against its
specification.  The embedding follows the Go sources: `index/reader.go` and
`index/index.go` (on-disk index records and the in-memory index) and
`vlog/log.go` (the memory-mapped value log).  Parts of the bucket layer that
are not present in the sources are modelled from the specification text and
are marked as such in their doc comments.
-/

namespace Timeq

/- Keys (`item.Key`) are signed 64-bit integers and are modelled as `Int`;
additions that can wrap around are made explicit through `iadd64`. -/

/-- Wrap an integer into the int64 range, as int64 arithmetic does. -/
def iwrap64 (n : Int) : Int := ((n + 2 ^ 63) % 2 ^ 64) - 2 ^ 63

/-- Addition of two int64 values, with wrap-around. -/
def iadd64 (a b : Int) : Int := iwrap64 (a + b)

/-- Membership of the int64 range. -/
def int64Range (k : Int) : Prop := -(2 ^ 63) ≤ k ∧ k < 2 ^ 63

instance (k : Int) : Decidable (int64Range k) := by unfold int64Range; infer_instance

/-- An item of the queue (`item.Item`): a key plus a byte blob. -/
structure Item where
  key : Int
  blob : List Nat
deriving DecidableEq, Inhabited

/-- A location (`item.Location`): a contiguous run of `len` items starting at
`off` whose first item has key `key`.  `Off` is an unsigned integer in the
source and is modelled as `Nat`. -/
structure Location where
  key : Int
  off : Nat
  len : Nat
deriving DecidableEq, Inhabited

/-! ## Big-endian byte encodings (`encoding/binary`) -/

/-- Big-endian encoding of `n` into `w` bytes, truncating modulo `256 ^ w`
exactly as the unsigned-integer casts in the source do. -/
def beBytes : Nat → Nat → List Nat
  | 0, _ => []
  | w + 1, n => beBytes w (n / 256) ++ [n % 256]

/-- Big-endian decoding of a byte list. -/
def beDecode (bs : List Nat) : Nat := bs.foldl (fun a b => a * 256 + b) 0

/-- The `uint64(key)` conversion used when writing a key. -/
def u64ofInt (k : Int) : Nat := (k % (2 ^ 64 : Int)).toNat

/-- The `item.Key(u)` conversion back from the stored unsigned value. -/
def intOfU64 (n : Nat) : Int := if n < 2 ^ 63 then (n : Int) else (n : Int) - 2 ^ 64

/-! ## The in-memory index (`index/index.go`)

The source keeps the index in a `btree.Map[item.Key, item.Location]`: an
ordered map with at most one entry per key.  It is modelled as an association
list kept sorted in ascending key order. -/

/-- The in-memory index: an ascending association list from keys to
locations, modelling the source's ordered b-tree map. -/
abbrev Index := List (Int × Location)

/-- Lookup (`btree.Map.Get`). -/
def idxGet : Index → Int → Option Location
  | [], _ => none
  | (k', v') :: t, k => if k = k' then some v' else idxGet t k

/-- Insert-or-replace (`btree.Map.Set`).  Returns the updated map together
with the previous value stored under the key, if any. -/
def idxSet : Index → Int → Location → Index × Option Location
  | [], k, v => ([(k, v)], none)
  | (k', v') :: t, k, v =>
    if k < k' then ((k, v) :: (k', v') :: t, none)
    else if k = k' then ((k, v) :: t, some v')
    else
      let r := idxSet t k v
      ((k', v') :: r.1, r.2)

/-- Removal (`btree.Map.Delete`).  The b-tree holds at most one entry per
key; on the duplicate-free states reachable in the source this removes
exactly that entry. -/
def idxDelete (i : Index) (k : Int) : Index := i.filter (fun e => decide (e.1 ≠ k))

/-- Replay step of `index.Load`: a record with `Len == 0` deletes any
previously loaded entry at its key, every other record inserts or
overwrites. -/
def loadStep (i : Index) (loc : Location) : Index :=
  if loc.len = 0 then idxDelete i loc.key else (idxSet i loc.key loc).1

/-- The `index.Load` replay: a left fold of `loadStep` over the records of
the index log, in file order. -/
def load (recs : List Location) : Index := recs.foldl loadStep []

/-! ## On-disk index records (`index/reader.go`) -/

/-- Size of the per-record trailer (`TrailerSize`). -/
def trailerSize : Nat := 4

/-- Physical size of one index record (`LocationSize`): 8 bytes of key,
8 bytes of offset, 4 bytes of length, plus the trailer. -/
def locationSize : Nat := 8 + 8 + 4 + trailerSize

/-- The trailer: the number of entries in the index (`index.Trailer`). -/
structure Trailer where
  totalEntries : Nat
deriving DecidableEq

/-- One on-disk index record: the location plus the running total-entries
counter written after it. -/
structure IndexRecord where
  loc : Location
  total : Nat
deriving DecidableEq

/-- Byte layout of one index record, as fixed by `Reader.Next`: big-endian
key in bytes 0-7, offset in bytes 8-15, length in bytes 16-19, trailer in
bytes 20-23. -/
def encodeRecord (r : IndexRecord) : List Nat :=
  beBytes 8 (u64ofInt r.loc.key) ++ beBytes 8 r.loc.off ++
    beBytes 4 r.loc.len ++ beBytes 4 r.total

/-- Errors surfaced by the value-log and index readers. -/
inductive ReadErr where
  | headerOutOfBounds
  | allocTooBig
  | payloadOutOfBounds
deriving DecidableEq

/-- The `index.ReadTrailer` function on the bytes of an existing, readable
index file: files shorter than one full record report zero entries, else the
last `trailerSize` bytes are decoded. -/
def readTrailer (file : List Nat) : Except ReadErr Trailer :=
  if file.length < locationSize then .ok { totalEntries := 0 }
  else .ok { totalEntries := beDecode ((file.drop (file.length - trailerSize)).take trailerSize) }

/-! ## Basic lemmas about the index model -/

theorem idxGet_idxSet_self (i : Index) (k : Int) (v : Location) :
    idxGet (idxSet i k v).1 k = some v := by
  induction i with
  | nil => simp [idxSet, idxGet]
  | cons e t ih =>
    obtain ⟨k', v'⟩ := e
    by_cases h1 : k < k'
    · simp [idxSet, h1, idxGet]
    · by_cases h2 : k = k'
      · simp [idxSet, h1, h2, idxGet]
      · simp [idxSet, h1, h2, idxGet, ih]

theorem idxGet_idxSet_ne (i : Index) (k k' : Int) (v : Location) (h : k' ≠ k) :
    idxGet (idxSet i k v).1 k' = idxGet i k' := by
  induction i with
  | nil => simp [idxSet, idxGet, h]
  | cons e t ih =>
    obtain ⟨k0, v0⟩ := e
    by_cases h1 : k < k0
    · simp [idxSet, h1, idxGet, h]
    · by_cases h2 : k = k0
      · subst h2
        simp [idxSet, h1, idxGet, h]
      · by_cases h3 : k' = k0
        · simp [idxSet, h1, h2, idxGet, h3]
        · simp [idxSet, h1, h2, idxGet, h3, ih]

theorem idxDelete_cons_self (k0 : Int) (v0 : Location) (t : Index) (h : k0 = k) :
    idxDelete ((k0, v0) :: t) k = idxDelete t k := by
  simp [idxDelete, List.filter_cons, h]

theorem idxDelete_cons_ne (k0 : Int) (v0 : Location) (t : Index) (h : ¬k0 = k) :
    idxDelete ((k0, v0) :: t) k = (k0, v0) :: idxDelete t k := by
  simp [idxDelete, List.filter_cons, h]

theorem idxGet_idxDelete_self (i : Index) (k : Int) :
    idxGet (idxDelete i k) k = none := by
  induction i with
  | nil => rfl
  | cons e t ih =>
    obtain ⟨k0, v0⟩ := e
    by_cases h : k0 = k
    · rw [idxDelete_cons_self k0 v0 t h]; exact ih
    · rw [idxDelete_cons_ne k0 v0 t h]
      have hne : ¬(k = k0) := fun hh => h hh.symm
      simp [idxGet, hne, ih]

theorem idxGet_idxDelete_ne (i : Index) (k k' : Int) (h : k' ≠ k) :
    idxGet (idxDelete i k) k' = idxGet i k' := by
  induction i with
  | nil => rfl
  | cons e t ih =>
    obtain ⟨k0, v0⟩ := e
    by_cases h0 : k0 = k
    · rw [idxDelete_cons_self k0 v0 t h0]
      have hne : ¬(k' = k0) := fun hh => h (hh.trans h0)
      simp [idxGet, hne, ih]
    · rw [idxDelete_cons_ne k0 v0 t h0]
      by_cases h1 : k' = k0
      · simp [idxGet, h1]
      · simp [idxGet, h1, ih]

/-! ## Claim C5: `Load` replays records with last-write-wins semantics -/

theorem foldl_loadStep_get (recs : List Location) (i : Index) (k : Int) :
    idxGet (recs.foldl loadStep i) k =
      ((recs.filter (fun r => decide (r.key = k))).getLast?).elim (idxGet i k)
        (fun r => if r.len = 0 then none else some r) := by
  induction recs generalizing i with
  | nil => simp
  | cons r t ih =>
    have hstep : idxGet (loadStep i r) k =
        if r.key = k then (if r.len = 0 then none else some r) else idxGet i k := by
      unfold loadStep
      by_cases hk : r.key = k
      · subst hk
        by_cases hl : r.len = 0 <;>
          simp [hl, idxGet_idxDelete_self, idxGet_idxSet_self]
      · by_cases hl : r.len = 0 <;>
          simp [hl, hk, idxGet_idxDelete_ne _ _ _ (Ne.symm hk),
            idxGet_idxSet_ne _ _ _ _ (Ne.symm hk)]
    rw [List.foldl_cons, ih, List.filter_cons]
    by_cases hk : r.key = k
    · have hkb : decide (r.key = k) = true := by simp [hk]
      rw [hkb, if_pos rfl]
      rcases hlast : (t.filter (fun r => decide (r.key = k))).getLast? with _ | y
      · have hnil : t.filter (fun r => decide (r.key = k)) = [] := by
          simpa using hlast
        rw [hlast, hnil]
        simp [Option.elim, hstep, hk]
      · have hne : t.filter (fun r => decide (r.key = k)) ≠ [] := by
          intro hnil; rw [hnil] at hlast; simp at hlast
        have hcons : (r :: t.filter (fun r => decide (r.key = k))).getLast? =
            (t.filter (fun r => decide (r.key = k))).getLast? := by
          rcases List.exists_cons_of_ne_nil hne with ⟨y0, ys, hys⟩
          rw [hys, List.getLast?_cons_cons]
        rw [hcons, hlast]
        rfl
    · have hkb : decide (r.key = k) = false := by simpa using hk
      rw [hkb, if_neg Bool.false_ne_true, hstep, if_neg hk]

/-- C5: `index.Load` builds the in-memory index as a left fold over the
on-disk records in file order, where a record with `len = 0` removes any
previously loaded entry at its key and every record with `len > 0` inserts
or overwrites; consequently the loaded map holds, at each key, exactly the
last record written for that key when that record is live, and no entry
otherwise. -/
theorem load_replay_lastWriteWins (recs : List Location) (k : Int) :
    load recs = recs.foldl loadStep [] ∧
    idxGet (load recs) k =
      ((recs.filter (fun r => decide (r.key = k))).getLast?).elim none
        (fun r => if r.len = 0 then none else some r) := by
  refine ⟨rfl, ?_⟩
  rw [load, foldl_loadStep_get]
  rfl

/-! ## Claim C3: physical size of an index record -/

theorem beBytes_length (w n : Nat) : (beBytes w n).length = w := by
  induction w generalizing n with
  | zero => rfl
  | succ w ih => simp [beBytes, ih]

/-- C3 counterexample: the record size constant `LocationSize` of the index
reader is `8 + 8 + 4 + 4 = 24` bytes, not the 28 bytes the specification
states. -/
theorem locationSize_ne_28 : locationSize ≠ 28 := by decide

/-- C3 (amended): every on-disk index record (8-byte key, 8-byte offset,
4-byte len, 4-byte trailer) occupies exactly 24 bytes, the reader's record
size constant equals 24, and an undamaged index file containing n records is
24·n bytes long. -/
theorem locationSize_record_layout :
    locationSize = 24 ∧
    ∀ rs : List IndexRecord, ((rs.map encodeRecord).flatten).length = locationSize * rs.length := by
  refine ⟨rfl, ?_⟩
  intro rs
  induction rs with
  | nil => simp
  | cons r t ih =>
    have hr : (encodeRecord r).length = 24 := by
      simp [encodeRecord, beBytes_length]
    have hj : ((r :: t).map encodeRecord).flatten =
        encodeRecord r ++ (t.map encodeRecord).flatten := rfl
    rw [hj, List.length_append, hr, ih]
    have hl : locationSize = 24 := rfl
    rw [hl, List.length_cons]
    ring

/-! ## Claim C9: trailer of a short index file -/

/-- C9: for every existing, readable index file whose size is smaller than
one full index record, `ReadTrailer` returns a trailer with zero total
entries and no error. -/
theorem readTrailer_short_file (file : List Nat) (h : file.length < locationSize) :
    readTrailer file = .ok { totalEntries := 0 } := by
  simp [readTrailer, h]

theorem readTrailer_short_file_witness :
    ([] : List Nat).length < locationSize ∧
    readTrailer [] = .ok { totalEntries := 0 } :=
  ⟨by decide, readTrailer_short_file [] (by decide)⟩

/-! ## `Index.SetSkewed` (`index/index.go`)

The probe loop is written with explicit fuel; the fuel is chosen so that the
loop runs exactly as long as the source's `for skew < maxSkew` loop. -/

/-- Probe loop of `SetSkewed`: starting at `skew`, look for the first free
slot at `loc.Key + skew`; on success insert the location there under its
skewed key and report the skew, otherwise report `maxSkew` and leave the
index alone. -/
def skewLoop (loc : Location) (maxSkew : Int) : Index → Int → Nat → Index × Location × Int
  | i, _, 0 => (i, loc, maxSkew)
  | i, skew, fuel + 1 =>
    if skew < maxSkew then
      match idxGet i (iadd64 loc.key skew) with
      | some _ => skewLoop loc maxSkew i (skew + 1) fuel
      | none =>
        let loc1 : Location := { loc with key := iadd64 loc.key skew }
        ((idxSet i loc1.key loc1).1, loc1, skew)
    else (i, loc, maxSkew)

/-- The `Index.SetSkewed` function: set the location, and if its key was
already taken restore the previous entry and probe for a free skewed slot. -/
def setSkewed (i : Index) (loc : Location) (maxSkew : Int) : Index × Location × Int :=
  let s := idxSet i loc.key loc
  match s.2 with
  | none => (s.1, loc, 0)
  | some prev => skewLoop loc maxSkew (idxSet s.1 loc.key prev).1 0 maxSkew.toNat

theorem iadd64_zero (k : Int) (h : int64Range k) : iadd64 k 0 = k := by
  unfold int64Range at h
  unfold iadd64 iwrap64
  have h1 : (0 : Int) ≤ k + 2 ^ 63 := by omega
  have h2 : k + 2 ^ 63 < 2 ^ 64 := by omega
  rw [add_zero, Int.emod_eq_of_lt h1 h2]
  omega

theorem idxGet_some_mem {i : Index} {k : Int} {p : Location}
    (h : idxGet i k = some p) : (k, p) ∈ i := by
  induction i with
  | nil => simp [idxGet] at h
  | cons e t ih =>
    obtain ⟨k0, v0⟩ := e
    by_cases hk : k = k0
    · subst hk
      simp [idxGet] at h
      subst h
      exact List.mem_cons_self _ _
    · simp [idxGet, hk] at h
      exact List.mem_cons_of_mem _ (ih h)

theorem idxGet_none_of_forall_lt {i : Index} {k : Int}
    (h : ∀ e ∈ i, k < e.1) : idxGet i k = none := by
  induction i with
  | nil => rfl
  | cons e t ih =>
    obtain ⟨k0, v0⟩ := e
    have hlt : k < k0 := h (k0, v0) (List.mem_cons_self _ _)
    have hk : ¬(k = k0) := ne_of_lt hlt
    simp [idxGet, hk]
    exact ih (fun e he => h e (List.mem_cons_of_mem _ he))

theorem idxSet_snd_of_sorted (i : Index) (k : Int) (v : Location)
    (hs : List.Pairwise (fun a b => a.1 < b.1) i) :
    (idxSet i k v).2 = idxGet i k := by
  induction i with
  | nil => rfl
  | cons e t ih =>
    obtain ⟨k0, v0⟩ := e
    rcases List.pairwise_cons.mp hs with ⟨hhead, htail⟩
    by_cases h1 : k < k0
    · have hget : idxGet t k = none :=
        idxGet_none_of_forall_lt (fun e he => lt_trans h1 (hhead e he))
      have hk : ¬(k = k0) := ne_of_lt h1
      simp [idxSet, h1, idxGet, hk, hget]
    · by_cases h2 : k = k0
      · simp [idxSet, h1, h2, idxGet]
      · simp [idxSet, h1, h2, idxGet, ih htail]

theorem idxSet_restore (i : Index) (k : Int) (v p : Location)
    (hs : List.Pairwise (fun a b => a.1 < b.1) i)
    (hget : idxGet i k = some p) :
    (idxSet (idxSet i k v).1 k p).1 = i := by
  induction i with
  | nil => simp [idxGet] at hget
  | cons e t ih =>
    obtain ⟨k0, v0⟩ := e
    rcases List.pairwise_cons.mp hs with ⟨hhead, htail⟩
    by_cases h2 : k = k0
    · subst h2
      simp [idxGet] at hget
      subst hget
      simp [idxSet]
    · have hgt : idxGet t k = some p := by
        simpa [idxGet, h2] using hget
      have hlt : k0 < k := hhead (k, p) (idxGet_some_mem hgt)
      have h1 : ¬(k < k0) := lt_asymm hlt
      simp [idxSet, h1, h2, ih htail hgt]

theorem skewLoop_all_occupied (loc : Location) (maxSkew : Int) (i : Index) :
    ∀ (fuel : Nat) (skew : Int),
      (∀ s : Int, skew ≤ s → s < maxSkew → idxGet i (iadd64 loc.key s) ≠ none) →
      skewLoop loc maxSkew i skew fuel = (i, loc, maxSkew) := by
  intro fuel
  induction fuel with
  | zero => intro skew _; rfl
  | succ fuel ih =>
    intro skew h
    by_cases hg : skew < maxSkew
    · rcases ho : idxGet i (iadd64 loc.key skew) with _ | p
      · exact absurd ho (h skew le_rfl hg)
      · simp only [skewLoop, if_pos hg, ho]
        exact ih (skew + 1) (fun s h1 h2 => h s (by omega) h2)
    · simp [skewLoop, hg]

theorem skewLoop_finds_free (loc : Location) (maxSkew : Int) (i : Index) (s : Nat)
    (hfree : idxGet i (iadd64 loc.key (s : Int)) = none)
    (hsm : (s : Int) < maxSkew) :
    ∀ (fuel : Nat) (skew : Nat), skew ≤ s → s - skew < fuel →
      (∀ t : Nat, skew ≤ t → t < s → idxGet i (iadd64 loc.key (t : Int)) ≠ none) →
      skewLoop loc maxSkew i (skew : Int) fuel =
        ((idxSet i (iadd64 loc.key (s : Int)) { loc with key := iadd64 loc.key (s : Int) }).1,
          { loc with key := iadd64 loc.key (s : Int) }, (s : Int)) := by
  intro fuel
  induction fuel with
  | zero => intro skew h1 h2 _; omega
  | succ fuel ih =>
    intro skew h1 h2 h3
    have hg : (skew : Int) < maxSkew := lt_of_le_of_lt (by exact_mod_cast h1) hsm
    by_cases he : skew = s
    · subst he
      simp only [skewLoop, if_pos hg, hfree]
    · have hlt : skew < s := lt_of_le_of_ne h1 he
      rcases ho : idxGet i (iadd64 loc.key (skew : Int)) with _ | p
      · exact absurd ho (h3 skew le_rfl hlt)
      · simp only [skewLoop, if_pos hg, ho]
        have hcast : ((skew : Int) + 1) = ((skew + 1 : Nat) : Int) := by push_cast; ring
        rw [hcast]
        exact ih (skew + 1) (by omega) (by omega) (fun t ht1 ht2 => h3 t (by omega) ht2)

/-- C10: if the keys `loc.Key, loc.Key+1, …, loc.Key+maxSkew−1` all have
live entries, `SetSkewed` leaves the index completely unchanged, inserts the
new location under no key at all, and returns the unmodified location
together with a skew equal to `maxSkew`. -/
theorem setSkewed_allOccupied (i : Index) (loc : Location) (maxSkew : Int)
    (hsorted : List.Pairwise (fun a b => a.1 < b.1) i)
    (hk : int64Range loc.key)
    (hms : 1 ≤ maxSkew)
    (hocc : ∀ s : Int, 0 ≤ s → s < maxSkew → idxGet i (iadd64 loc.key s) ≠ none) :
    setSkewed i loc maxSkew = (i, loc, maxSkew) := by
  have h0 : idxGet i loc.key ≠ none := by
    have := hocc 0 le_rfl (by omega)
    rwa [iadd64_zero loc.key hk] at this
  rcases hp : idxGet i loc.key with _ | p
  · exact absurd hp h0
  · have hsnd : (idxSet i loc.key loc).2 = some p := by
      rw [idxSet_snd_of_sorted i loc.key loc hsorted, hp]
    simp only [setSkewed, hsnd]
    rw [idxSet_restore i loc.key loc p hsorted hp]
    exact skewLoop_all_occupied loc maxSkew i maxSkew.toNat 0 (fun s h1 h2 => hocc s h1 h2)

theorem setSkewed_allOccupied_witness :
    setSkewed [((10 : Int), ⟨10, 0, 1⟩), (11, ⟨11, 4, 2⟩)] ⟨10, 9, 3⟩ 2 =
      ([((10 : Int), ⟨10, 0, 1⟩), (11, ⟨11, 4, 2⟩)], ⟨10, 9, 3⟩, 2) :=
  setSkewed_allOccupied _ _ _ (by decide) (by decide) (by decide)
    (fun s h1 h2 => by
      have hs : s = 0 ∨ s = 1 := by omega
      rcases hs with h | h <;> subst h <;> decide)

/-- C4 counterexample: with `maxSkew = 2`, an index holding live entries at
keys 0 and 1 and a new location with key 0, the key `loc.Key + maxSkew = 2`
is unused, yet `SetSkewed` inserts nothing at all (the probe stops at
`loc.Key + maxSkew − 1`) and returns the unchanged location with skew 2. -/
theorem setSkewed_dropsWhenOnlyLastSlotFree :
    setSkewed [((0 : Int), ⟨0, 0, 1⟩), (1, ⟨1, 5, 1⟩)] ⟨0, 10, 1⟩ 2 =
      ([((0 : Int), ⟨0, 0, 1⟩), (1, ⟨1, 5, 1⟩)], ⟨0, 10, 1⟩, 2) ∧
    idxGet [((0 : Int), ⟨0, 0, 1⟩), (1, ⟨1, 5, 1⟩)] 2 = none := by decide

/-- C4 (amended): when the key of `loc` already has a live entry, `SetSkewed`
restores the previous entry and probes the keys
`loc.Key+1, …, loc.Key+maxSkew−1`; if `loc.Key + s` is the first unused one
of them, it inserts `loc` there under the skewed key and returns the actual
skew `s` used. -/
theorem setSkewed_insertsAtFirstFreeProbe (i : Index) (loc : Location) (maxSkew : Int) (s : Nat)
    (hsorted : List.Pairwise (fun a b => a.1 < b.1) i)
    (hk : int64Range loc.key)
    (hs1 : 1 ≤ s) (hsm : (s : Int) < maxSkew)
    (hocc : ∀ t : Nat, t < s → idxGet i (iadd64 loc.key (t : Int)) ≠ none)
    (hfree : idxGet i (iadd64 loc.key (s : Int)) = none) :
    setSkewed i loc maxSkew =
      ((idxSet i (iadd64 loc.key (s : Int)) { loc with key := iadd64 loc.key (s : Int) }).1,
        { loc with key := iadd64 loc.key (s : Int) }, (s : Int)) := by
  have h0 : idxGet i loc.key ≠ none := by
    have := hocc 0 (by omega)
    rwa [Nat.cast_zero, iadd64_zero loc.key hk] at this
  rcases hp : idxGet i loc.key with _ | p
  · exact absurd hp h0
  · have hsnd : (idxSet i loc.key loc).2 = some p := by
      rw [idxSet_snd_of_sorted i loc.key loc hsorted, hp]
    simp only [setSkewed, hsnd]
    rw [idxSet_restore i loc.key loc p hsorted hp]
    have := skewLoop_finds_free loc maxSkew i s hfree hsm maxSkew.toNat 0
      (by omega) (by omega) (fun t _ ht2 => hocc t ht2)
    rwa [Nat.cast_zero] at this

theorem setSkewed_insertsAtFirstFreeProbe_witness :
    setSkewed [((0 : Int), ⟨0, 0, 2⟩)] ⟨0, 7, 1⟩ 2 =
      ([((0 : Int), ⟨0, 0, 2⟩), (1, ⟨1, 7, 1⟩)], ⟨1, 7, 1⟩, 1) := by
  have h := setSkewed_insertsAtFirstFreeProbe [((0 : Int), ⟨0, 0, 2⟩)] ⟨0, 7, 1⟩ 2 1
    (by decide) (by decide) le_rfl (by decide)
    (fun t ht => by
      have ht0 : t = 0 := by omega
      subst ht0; decide)
    (by decide)
  exact h.trans (by decide)

/-! ## The value log (`vlog/log.go`) -/

/-- Size of an item header: 4 bytes of blob length plus 8 bytes of key. -/
def itemHeaderSize : Nat := 12

/-- State of a value log: the mapped bytes, the logical size and the sync
flag.  The mapped bytes coincide with the bytes of the file on disk. -/
structure VLog where
  data : List Nat
  size : Nat
  sync : Bool
deriving DecidableEq

/-- The `vlog.Open` function, applied to the bytes of the opened file.  A
zero-size file is truncated to one item header before mapping while the
logical size keeps the stat size 0.  The composite literal in the source
builds the Log without assigning its sync field, so that field keeps Go's
zero value `false` no matter which argument was passed. -/
def openVLog (file : List Nat) (_syncRequested : Bool) : VLog :=
  if file.length = 0 then
    { data := List.replicate itemHeaderSize 0, size := 0, sync := false }
  else
    { data := file, size := file.length, sync := false }

/-- Store bytes at an offset of the mapped area (the source's
`binary.BigEndian.Put…` and `copy` writes). -/
def putBytes (d : List Nat) (off : Nat) (bs : List Nat) : List Nat :=
  d.take off ++ bs ++ d.drop (off + bs.length)

/-- Resize the file to `n` bytes (`ftruncate` followed by an `mremap` with
`MREMAP_MAYMOVE`): existing bytes are kept, added bytes read as zero. -/
def ftruncateTo (d : List Nat) (n : Nat) : List Nat :=
  d.take n ++ List.replicate (n - d.length) 0

/-- The `Log.writeItem` method: 4-byte big-endian blob length, 8-byte
big-endian key, then the blob bytes, written at offset `off` (the log's
current logical size). -/
def writeItem (d : List Nat) (off : Nat) (it : Item) : List Nat :=
  let d1 := putBytes d off (beBytes 4 it.blob.length)
  let d2 := putBytes d1 (off + 4) (beBytes 8 (u64ofInt it.key))
  putBytes d2 (off + itemHeaderSize) it.blob

/-- Bytes one item occupies in the log. -/
def itemSize (it : Item) : Nat := itemHeaderSize + it.blob.length

/-- One iteration of the write loop in `Log.Push`: write the item at the
current size, then advance the size. -/
def writeStep (acc : List Nat × Nat) (it : Item) : List Nat × Nat :=
  (writeItem acc.1 acc.2 it, acc.2 + itemSize it)

/-- The `Log.Push` function: compute the added size, build the location from
the first item's key and the current logical size, truncate and remap the
file, then write all items in order.  The source indexes `items[0]` and is
never called with an empty batch; the empty case is mapped to a no-op. -/
def vlogPush (l : VLog) (items : List Item) : VLog × Location :=
  match items with
  | [] => (l, default)
  | first :: _ =>
    let addSize := (items.map itemSize).sum
    let loc : Location := { key := first.key, off := l.size, len := items.length }
    let newSize := l.size + addSize
    let d0 := ftruncateTo l.data newSize
    let fin := items.foldl writeStep (d0, l.size)
    ({ data := fin.1, size := fin.2, sync := l.sync }, loc)

/-- Byte encoding of one item record: 4-byte big-endian blob length, 8-byte
big-endian key, then the blob. -/
def encodeItem (it : Item) : List Nat :=
  beBytes 4 it.blob.length ++ beBytes 8 (u64ofInt it.key) ++ it.blob

/-- Concatenated encoding of a batch of items. -/
def encodeItems (items : List Item) : List Nat := (items.map encodeItem).flatten

/-- The `Log.readItemAt` function: reject an offset whose header would not
lie strictly inside the log (`off+12 >= size` in the source), decode the
header, reject blobs above 4 MiB and blobs that would cross the logical
size, else return the item with its blob sliced out of the map. -/
def readItemAt (l : VLog) (off : Nat) : Except ReadErr Item :=
  if l.size ≤ off + itemHeaderSize then .error .headerOutOfBounds
  else
    let len := beDecode ((l.data.drop off).take 4)
    let key := beDecode ((l.data.drop (off + 4)).take 8)
    if 4 * 1024 * 1024 < len then .error .allocTooBig
    else if l.size < off + itemHeaderSize + len then .error .payloadOutOfBounds
    else .ok { key := intOfU64 key, blob := (l.data.drop (off + itemHeaderSize)).take len }

/-- Whether `Log.Sync(force)` actually msyncs: the source returns early,
without syncing, exactly when the sync field is unset and no force is
given.  `Log.Push` ends with `l.Sync(false)`. -/
def syncPerforms (l : VLog) (force : Bool) : Bool := l.sync || force

/-! ## Helper lemmas about `putBytes` and the write loop -/

theorem drop_append_add {α : Type} (A B : List α) (n m : Nat) (h : A.length = n) :
    (A ++ B).drop (n + m) = B.drop m := by
  have h1 : (A ++ B).drop (n + m) = ((A ++ B).drop n).drop m := by
    rw [List.drop_drop]
  rw [h1, List.drop_left' h]

theorem putBytes_length (d : List Nat) (off : Nat) (bs : List Nat)
    (h : off + bs.length ≤ d.length) : (putBytes d off bs).length = d.length := by
  simp only [putBytes, List.length_append, List.length_take, List.length_drop]
  omega

theorem putBytes_append (d : List Nat) (off : Nat) (b1 b2 : List Nat) (h : off ≤ d.length) :
    putBytes (putBytes d off b1) (off + b1.length) b2 = putBytes d off (b1 ++ b2) := by
  have hlen : (d.take off ++ b1).length = off + b1.length := by
    simp only [List.length_append, List.length_take]
    omega
  unfold putBytes
  have htake : ((d.take off ++ b1 ++ d.drop (off + b1.length)).take (off + b1.length)) =
      d.take off ++ b1 := by
    rw [List.take_left' hlen]
  have hdrop : ((d.take off ++ b1 ++ d.drop (off + b1.length)).drop (off + b1.length + b2.length)) =
      d.drop (off + (b1 ++ b2).length) := by
    rw [drop_append_add _ _ _ _ hlen, List.drop_drop]
    congr 1
    simp only [List.length_append]
    omega
  rw [htake, hdrop]
  simp [List.append_assoc]

theorem beBytes4_length (n : Nat) : (beBytes 4 n).length = 4 := beBytes_length 4 n

theorem encodeItem_length (it : Item) : (encodeItem it).length = itemSize it := by
  simp only [encodeItem, itemSize, itemHeaderSize, List.length_append, beBytes_length]

theorem writeItem_eq (d : List Nat) (off : Nat) (it : Item) (h : off ≤ d.length) :
    writeItem d off it = putBytes d off (encodeItem it) := by
  have h4 : (beBytes 4 it.blob.length).length = 4 := beBytes_length _ _
  have h8 : (beBytes 8 (u64ofInt it.key)).length = 8 := beBytes_length _ _
  have e1 : writeItem d off it =
      putBytes (putBytes (putBytes d off (beBytes 4 it.blob.length))
        (off + 4) (beBytes 8 (u64ofInt it.key))) (off + itemHeaderSize) it.blob := rfl
  rw [e1]
  rw [show off + 4 = off + (beBytes 4 it.blob.length).length from by rw [h4]]
  rw [putBytes_append d off _ _ h]
  rw [show off + itemHeaderSize =
      off + (beBytes 4 it.blob.length ++ beBytes 8 (u64ofInt it.key)).length
      from by simp [h4, h8, itemHeaderSize]]
  rw [putBytes_append d off _ _ h]
  rfl

theorem writeFold (items : List Item) :
    ∀ (d : List Nat) (sz : Nat), d.length = sz + (items.map itemSize).sum →
      items.foldl writeStep (d, sz) =
        (d.take sz ++ encodeItems items, sz + (items.map itemSize).sum) := by
  induction items with
  | nil =>
    intro d sz h
    simp only [List.map_nil, List.sum_nil, Nat.add_zero] at h
    subst h
    simp [encodeItems, List.take_length]
  | cons it rest ih =>
    intro d sz h
    simp only [List.map_cons, List.sum_cons] at h
    have hbound : sz + itemSize it ≤ d.length := by omega
    have hw : writeItem d sz it = putBytes d sz (encodeItem it) :=
      writeItem_eq d sz it (by omega)
    have henc : (encodeItem it).length = itemSize it := encodeItem_length it
    have hlen1 : (putBytes d sz (encodeItem it)).length = d.length :=
      putBytes_length _ _ _ (by omega)
    rw [List.foldl_cons, show writeStep (d, sz) it = (putBytes d sz (encodeItem it), sz + itemSize it)
      from by simp [writeStep, hw]]
    rw [ih _ _ (by rw [hlen1]; omega)]
    have hpre : (d.take sz ++ encodeItem it).length = sz + itemSize it := by
      simp only [List.length_append, List.length_take, henc]
      omega
    have htk : (putBytes d sz (encodeItem it)).take (sz + itemSize it) =
        d.take sz ++ encodeItem it := by
      unfold putBytes
      exact List.take_left' hpre
    rw [htk]
    have hencs : encodeItems (it :: rest) = encodeItem it ++ encodeItems rest := rfl
    rw [hencs, List.append_assoc]
    congr 1
    simp only [List.map_cons, List.sum_cons]
    omega

/-! ## Claim C6: `Log.Push` appends encoded records -/

/-- C6 (amended): for every non-empty batch, `Log.Push` writes one record
per item in list order (4-byte big-endian blob length, 8-byte big-endian
key, then the blob) starting at the log's current logical size; the file
ends up exactly `size + added` bytes long, the logical size advances by the
total added bytes, and the returned location is (first item's key, old
logical size, number of items).  The logical size equals the on-disk file
size except on a freshly created empty log, whose file was pre-truncated to
one 12-byte header while its logical size is 0 — there the first push
overwrites the pre-truncated header bytes instead of growing the file. -/
theorem vlogPush_appendsRecords (l : VLog) (first : Item) (rest : List Item)
    (hinv : l.data.length = l.size ∨ (l.size = 0 ∧ l.data.length = itemHeaderSize)) :
    (vlogPush l (first :: rest)).1.data =
        l.data.take l.size ++ encodeItems (first :: rest) ∧
    (vlogPush l (first :: rest)).1.data.length =
        l.size + ((first :: rest).map itemSize).sum ∧
    (vlogPush l (first :: rest)).1.size =
        l.size + ((first :: rest).map itemSize).sum ∧
    (vlogPush l (first :: rest)).2 =
        { key := first.key, off := l.size, len := (first :: rest).length } := by
  set items := first :: rest with hitems
  set addSize := (items.map itemSize).sum with hadd
  have haddge : itemHeaderSize ≤ addSize := by
    rw [hadd, hitems]
    simp only [List.map_cons, List.sum_cons, itemSize]
    omega
  have hle : l.data.length ≤ l.size + addSize := by
    rcases hinv with h | ⟨h0, h12⟩ <;> omega
  have hszle : l.size ≤ l.data.length := by
    rcases hinv with h | ⟨h0, h12⟩ <;> omega
  have hd0 : ftruncateTo l.data (l.size + addSize) =
      l.data ++ List.replicate (l.size + addSize - l.data.length) 0 := by
    unfold ftruncateTo
    rw [List.take_of_length_le hle]
  have hd0len : (ftruncateTo l.data (l.size + addSize)).length = l.size + addSize := by
    rw [hd0]
    simp only [List.length_append, List.length_replicate]
    omega
  have hfold := writeFold items (ftruncateTo l.data (l.size + addSize)) l.size
    (by rw [hd0len])
  have hpush : vlogPush l items =
      ({ data := (items.foldl writeStep (ftruncateTo l.data (l.size + addSize), l.size)).1,
         size := (items.foldl writeStep (ftruncateTo l.data (l.size + addSize), l.size)).2,
         sync := l.sync },
       { key := first.key, off := l.size, len := items.length }) := by
    rw [hitems]
    rfl
  have htake0 : (ftruncateTo l.data (l.size + addSize)).take l.size = l.data.take l.size := by
    rw [hd0]
    rw [List.take_append_of_le_length hszle]
  rw [hpush, hfold]
  refine ⟨?_, ?_, ?_, rfl⟩
  · simp [htake0]
  · simp only [htake0]
    simp only [List.length_append, List.length_take]
    have : (encodeItems items).length = addSize := by
      rw [hadd]
      unfold encodeItems
      induction items with
      | nil => simp
      | cons a t iht =>
        have : ((a :: t).map encodeItem).flatten = encodeItem a ++ (t.map encodeItem).flatten := rfl
        rw [this, List.length_append, encodeItem_length]
        simp only [List.map_cons, List.sum_cons]
        omega
    omega
  · rfl

/-- C6 counterexample: on a freshly created empty log the file has already
been truncated to 12 bytes at open time, so the first push of a single
empty-blob item starts writing at offset 0 — not at the old file size 12 —
and leaves the file at 12 bytes, a growth of 0 rather than of the 12 added
bytes; the returned offset is 0, not the old file size. -/
theorem vlogPush_freshLog_counterexample :
    (openVLog [] true).data.length = 12 ∧
    (vlogPush (openVLog [] true) [{ key := 0, blob := [] }]).1.data.length = 12 ∧
    ¬ ((vlogPush (openVLog [] true) [{ key := 0, blob := [] }]).1.data.length =
        (openVLog [] true).data.length + 12) ∧
    ¬ ((vlogPush (openVLog [] true) [{ key := 0, blob := [] }]).2.off =
        (openVLog [] true).data.length) := by decide

theorem vlogPush_appendsRecords_witness :
    ((openVLog [] false).data.length = (openVLog [] false).size ∨
      ((openVLog [] false).size = 0 ∧ (openVLog [] false).data.length = itemHeaderSize)) ∧
    (vlogPush (openVLog [] false) [{ key := 1, blob := [7] }]).1.data =
        (openVLog [] false).data.take (openVLog [] false).size ++
          encodeItems [{ key := 1, blob := [7] }] :=
  ⟨Or.inr (by decide),
    (vlogPush_appendsRecords (openVLog [] false) { key := 1, blob := [7] } []
      (Or.inr (by decide))).1⟩

/-! ## Claim C2: `readItemAt` at the boundary offset -/

/-- C2: pushing a single empty-blob item with key 0 into an empty value log
yields the location (0, 0, 1) and a log of logical size 12, so the claimed
bounds `off+12 ≤ size`, `len ≤ 4 MiB` and `off+12+len ≤ size` all hold at
offset 0 — yet `readItemAt 0` fails, because the source rejects every
offset with `off+12 >= size` instead of `off+12 > size`. -/
theorem readItemAt_boundary_bug :
    (vlogPush (openVLog [] false) [{ key := 0, blob := [] }]).2 =
        { key := 0, off := 0, len := 1 } ∧
    (vlogPush (openVLog [] false) [{ key := 0, blob := [] }]).1.size = 12 ∧
    0 + itemHeaderSize ≤ (vlogPush (openVLog [] false) [{ key := 0, blob := [] }]).1.size ∧
    readItemAt (vlogPush (openVLog [] false) [{ key := 0, blob := [] }]).1 0 =
        .error .headerOutOfBounds := by
  refine ⟨by decide, by decide, by decide, ?_⟩
  rfl

/-! ## Claim C7: the sync flag is dropped by `Open` -/

/-- C7: `vlog.Open` never stores its sync argument (the struct literal in
the source omits the sync field), so even a log opened with sync enabled has
the flag unset and `Sync(false)` — which every push ends with — performs no
msync at all. -/
theorem openVLog_dropsSyncFlag (file : List Nat) (syncRequested : Bool) :
    (openVLog file syncRequested).sync = false ∧
    syncPerforms (openVLog file syncRequested) false = false ∧
    (vlogPush (openVLog file syncRequested) [{ key := 0, blob := [] }]).1.sync = false := by
  by_cases h : file.length = 0 <;>
    simp [openVLog, h, syncPerforms, vlogPush]

/-! ## The bucket layer

The bucket implementation (`bucket.go`, `buckets.go`) is not part of the
sources — only its tests and callers are.  The definitions below are
modelled from the specification, working at item granularity; the in-memory
index operations (`SetSkewed`) are the embedded source functions. -/

/-- Modelled from the spec: the per-fork state of one bucket — the bucket's
value log (at item granularity) and the fork's in-memory index (§4.3). -/
structure BucketState where
  vlog : List Item
  idx : Index
deriving DecidableEq

/-- Run of items a location points at: `len` items starting at `off`. -/
def runOf (vl : List Item) (loc : Location) : List Item := (vl.drop loc.off).take loc.len

/-- Modelled from the spec: a full read of one bucket walks the fork's index
in ascending key order and hands each live run over whole (§4.3: one
callback per run, budget permitting). -/
def bucketRead (b : BucketState) : List Item :=
  (b.idx.map (fun e => runOf b.vlog e.2)).flatten

/-- Length of a fork: the sum of the lengths of its live index entries. -/
def bucketLen (b : BucketState) : Nat := (b.idx.map (fun e => e.2.len)).sum

/-- An item's key lies within the inclusive range `[lo, hi]`. -/
def inRange (lo hi : Int) (it : Item) : Bool := decide (lo ≤ it.key) && decide (it.key ≤ hi)

/-- Left overhang of a run under a delete: the leading items whose keys lie
below the range. -/
def splitLeft (lo : Int) (r : List Item) : List Item :=
  r.takeWhile (fun it => decide (it.key < lo))

/-- Remainder of a run after its left overhang. -/
def splitRest (lo : Int) (r : List Item) : List Item := r.drop (splitLeft lo r).length

/-- Deleted middle of a run: the items of the remainder whose keys still lie
within the range. -/
def splitMid (lo hi : Int) (r : List Item) : List Item :=
  (splitRest lo r).takeWhile (fun it => decide (it.key ≤ hi))

/-- Right overhang of a run: the items past the deleted middle. -/
def splitRight (lo hi : Int) (r : List Item) : List Item :=
  (splitRest lo r).drop (splitMid lo hi r).length

/-- Modelled from the spec: `delete` on one index entry (§4.3).  The
entry's run splits into the left overhang (keys below `lo`), the deleted
middle (keys in `[lo, hi]`) and the right overhang (keys above `hi`).  The
overhangs stay live: the left one under the unchanged entry with a shrunk
length, the right one under the key of its first surviving item with the
offset advanced past the deleted items; an untouched entry stays as is.
Returns the surviving entries and the number of removed items.  The
surviving entry for the left overhang keeps the original entry with a
shrunk length: -/
def leftEntries (vl : List Item) (ent : Int × Location) (lo : Int) : List (Int × Location) :=
  if (splitLeft lo (runOf vl ent.2)).length = 0 then []
  else [(ent.1, { ent.2 with len := (splitLeft lo (runOf vl ent.2)).length })]

/-- Surviving entry for the right overhang of a trimmed run: keyed by its
first surviving item, its offset advanced past the left overhang and the
deleted middle. -/
def rightEntries (vl : List Item) (ent : Int × Location) (lo hi : Int) :
    List (Int × Location) :=
  match (splitRight lo hi (runOf vl ent.2)).head? with
  | none => []
  | some s =>
    [(s.key,
      { key := s.key,
        off := ent.2.off + (splitLeft lo (runOf vl ent.2)).length + (splitMid lo hi (runOf vl ent.2)).length,
        len := (splitRight lo hi (runOf vl ent.2)).length })]

def deleteFromRun (vl : List Item) (ent : Int × Location) (lo hi : Int) :
    List (Int × Location) × Nat :=
  if (splitMid lo hi (runOf vl ent.2)).length = 0 then ([ent], 0)
  else (leftEntries vl ent lo ++ rightEntries vl ent lo hi,
    (splitMid lo hi (runOf vl ent.2)).length)

/-- Modelled from the spec: `delete(fork, lo, hi)` walks the fork's index
and rewrites every entry via `deleteFromRun`, returning the total number of
removed items (§4.3; a range with `lo > hi` is rejected before this point). -/
def bucketDelete (b : BucketState) (lo hi : Int) : BucketState × Nat :=
  ({ vlog := b.vlog,
     idx := (b.idx.map (fun ent => (deleteFromRun b.vlog ent lo hi).1)).flatten },
   (b.idx.map (fun ent => (deleteFromRun b.vlog ent lo hi).2)).sum)

/-! ## Claim C8: delete removes exactly the in-range items -/

theorem runOf_length (vl : List Item) (loc : Location)
    (hb : loc.off + loc.len ≤ vl.length) : (runOf vl loc).length = loc.len := by
  simp only [runOf, List.length_take, List.length_drop]
  omega

theorem runOf_take (vl : List Item) (loc : Location) (n : Nat) (hn : n ≤ loc.len) :
    runOf vl { loc with len := n } = (runOf vl loc).take n := by
  simp only [runOf]
  rw [List.take_take]
  congr 1
  omega

theorem runOf_drop (vl : List Item) (k k2 : Int) (off m len : Nat) :
    runOf vl { key := k2, off := off + m, len := len - m } =
      (runOf vl { key := k, off := off, len := len }).drop m := by
  simp only [runOf]
  rw [List.drop_take, List.drop_drop]

theorem drop_takeWhile_length {α : Type} (p : α → Bool) (l : List α) :
    l.drop (l.takeWhile p).length = l.dropWhile p := by
  have h2 := List.drop_left (l.takeWhile p) (l.dropWhile p)
  rw [List.takeWhile_append_dropWhile p l] at h2
  exact h2

theorem take_takeWhile_length {α : Type} (p : α → Bool) (l : List α) :
    l.take (l.takeWhile p).length = l.takeWhile p := by
  have h2 := List.take_left (l.takeWhile p) (l.dropWhile p)
  rw [List.takeWhile_append_dropWhile p l] at h2
  exact h2

theorem sorted_dropWhile_false {p : Item → Bool} {l : List Item}
    (hs : List.Pairwise (fun a c : Item => a.key ≤ c.key) l)
    (hmono : ∀ x y : Item, x.key ≤ y.key → p y = true → p x = true) :
    ∀ x ∈ l.dropWhile p, p x = false := by
  induction l with
  | nil => intro x hx; simp at hx
  | cons a t ih =>
    rcases List.pairwise_cons.mp hs with ⟨hhead, htail⟩
    by_cases hp : p a = true
    · rw [List.dropWhile_cons_of_pos hp]
      exact ih htail
    · rw [List.dropWhile_cons_of_neg hp]
      intro x hx
      rcases List.mem_cons.mp hx with h | h
      · subst h
        exact Bool.eq_false_iff.mpr hp
      · by_cases hpx : p x = true
        · exact absurd (hmono a x (hhead x h) hpx) hp
        · exact Bool.eq_false_iff.mpr hpx

theorem splitLeft_append_rest (lo : Int) (r : List Item) :
    splitLeft lo r ++ splitRest lo r = r := by
  unfold splitRest splitLeft
  rw [drop_takeWhile_length]
  exact List.takeWhile_append_dropWhile _ _

theorem splitMid_append_right (lo hi : Int) (r : List Item) :
    splitMid lo hi r ++ splitRight lo hi r = splitRest lo r := by
  unfold splitRight splitMid
  rw [drop_takeWhile_length]
  exact List.takeWhile_append_dropWhile _ _

theorem splitRest_sublist (lo : Int) (r : List Item) : List.Sublist (splitRest lo r) r := by
  unfold splitRest splitLeft
  rw [drop_takeWhile_length]
  exact List.dropWhile_sublist _

theorem mem_splitLeft_lt (lo : Int) (r : List Item) :
    ∀ x ∈ splitLeft lo r, x.key < lo := by
  intro x hx
  have h := List.mem_takeWhile_imp hx
  simpa using h

theorem mem_splitMid_le (lo hi : Int) (r : List Item) :
    ∀ x ∈ splitMid lo hi r, x.key ≤ hi := by
  intro x hx
  have h := List.mem_takeWhile_imp hx
  simpa using h

theorem mem_splitRest_ge (lo : Int) (r : List Item)
    (hs : List.Pairwise (fun a c : Item => a.key ≤ c.key) r) :
    ∀ x ∈ splitRest lo r, lo ≤ x.key := by
  intro x hx
  have hx' : x ∈ r.dropWhile (fun it => decide (it.key < lo)) := by
    rw [← drop_takeWhile_length]
    exact hx
  have h := sorted_dropWhile_false hs
    (fun a c hac hc => by
      simp only [decide_eq_true_eq] at hc ⊢
      omega) x hx'
  simp only [decide_eq_false_iff_not] at h
  omega

theorem mem_splitRight_gt (lo hi : Int) (r : List Item)
    (hs : List.Pairwise (fun a c : Item => a.key ≤ c.key) r) :
    ∀ x ∈ splitRight lo hi r, hi < x.key := by
  intro x hx
  have hs2 : List.Pairwise (fun a c : Item => a.key ≤ c.key) (splitRest lo r) :=
    List.Pairwise.sublist (splitRest_sublist lo r) hs
  have hx' : x ∈ (splitRest lo r).dropWhile (fun it => decide (it.key ≤ hi)) := by
    rw [← drop_takeWhile_length]
    exact hx
  have h := sorted_dropWhile_false hs2
    (fun a c hac hc => by
      simp only [decide_eq_true_eq] at hc ⊢
      omega) x hx'
  simp only [decide_eq_false_iff_not] at h
  omega

theorem filter_splitThree (lo hi : Int) (r : List Item)
    (hs : List.Pairwise (fun a c : Item => a.key ≤ c.key) r) :
    r.filter (fun it => !(inRange lo hi it)) = splitLeft lo r ++ splitRight lo hi r := by
  have hpart : splitLeft lo r ++ (splitMid lo hi r ++ splitRight lo hi r) = r := by
    rw [splitMid_append_right, splitLeft_append_rest]
  conv_lhs => rw [← hpart]
  rw [List.filter_append, List.filter_append]
  have hL : (splitLeft lo r).filter (fun it => !(inRange lo hi it)) = splitLeft lo r := by
    rw [List.filter_eq_self]
    intro a ha
    have hlt := mem_splitLeft_lt lo r a ha
    have : inRange lo hi a = false := by
      simp only [inRange, Bool.and_eq_false_iff, decide_eq_false_iff_not]
      left
      omega
    simp [this]
  have hM : (splitMid lo hi r).filter (fun it => !(inRange lo hi it)) = [] := by
    rw [List.filter_eq_nil_iff]
    intro a ha
    have h1 := mem_splitMid_le lo hi r a ha
    have h2 : lo ≤ a.key := by
      have hmem : a ∈ splitRest lo r := (List.takeWhile_sublist _).subset ha
      exact mem_splitRest_ge lo r hs a hmem
    have : inRange lo hi a = true := by
      simp only [inRange, Bool.and_eq_true, decide_eq_true_eq]
      exact ⟨h2, h1⟩
    simp [this]
  have hR : (splitRight lo hi r).filter (fun it => !(inRange lo hi it)) = splitRight lo hi r := by
    rw [List.filter_eq_self]
    intro a ha
    have hgt := mem_splitRight_gt lo hi r hs a ha
    have : inRange lo hi a = false := by
      simp only [inRange, Bool.and_eq_false_iff, decide_eq_false_iff_not]
      right
      omega
    simp [this]
  rw [hL, hM, hR, List.nil_append]

theorem leftEntries_read (vl : List Item) (ent : Int × Location) (lo : Int)
    (hkl : (splitLeft lo (runOf vl ent.2)).length ≤ ent.2.len) :
    ((leftEntries vl ent lo).map (fun e => runOf vl e.2)).flatten =
      splitLeft lo (runOf vl ent.2) := by
  unfold leftEntries
  by_cases hz : (splitLeft lo (runOf vl ent.2)).length = 0
  · rw [if_pos hz, List.length_eq_zero.mp hz]
    rfl
  · rw [if_neg hz]
    simp only [List.map_cons, List.map_nil, List.flatten_cons, List.flatten_nil,
      List.append_nil]
    rw [runOf_take vl ent.2 _ hkl]
    unfold splitLeft
    exact take_takeWhile_length _ _

theorem rightEntries_read (vl : List Item) (ent : Int × Location) (lo hi : Int)
    (hsum : (splitLeft lo (runOf vl ent.2)).length + (splitMid lo hi (runOf vl ent.2)).length +
      (splitRight lo hi (runOf vl ent.2)).length = ent.2.len) :
    ((rightEntries vl ent lo hi).map (fun e => runOf vl e.2)).flatten =
      splitRight lo hi (runOf vl ent.2) := by
  have hpart : splitLeft lo (runOf vl ent.2) ++
      (splitMid lo hi (runOf vl ent.2) ++ splitRight lo hi (runOf vl ent.2)) =
      runOf vl ent.2 := by
    rw [splitMid_append_right, splitLeft_append_rest]
  have hdropped : (runOf vl ent.2).drop
      ((splitLeft lo (runOf vl ent.2)).length + (splitMid lo hi (runOf vl ent.2)).length) =
      splitRight lo hi (runOf vl ent.2) := by
    have h0 := List.drop_left
      (splitLeft lo (runOf vl ent.2) ++ splitMid lo hi (runOf vl ent.2))
      (splitRight lo hi (runOf vl ent.2))
    rw [List.append_assoc, hpart, List.length_append] at h0
    exact h0
  unfold rightEntries
  rcases hh : (splitRight lo hi (runOf vl ent.2)).head? with _ | s
  · rw [List.head?_eq_none_iff.mp hh]
    rfl
  · show (List.map (fun e => runOf vl e.2)
        [((s.key : Int),
          ({ key := s.key,
             off := ent.2.off + (splitLeft lo (runOf vl ent.2)).length + (splitMid lo hi (runOf vl ent.2)).length,
             len := (splitRight lo hi (runOf vl ent.2)).length } : Location))]).flatten =
      splitRight lo hi (runOf vl ent.2)
    simp only [List.map_cons, List.map_nil, List.flatten_cons, List.flatten_nil,
      List.append_nil]
    have hoff : ent.2.off + (splitLeft lo (runOf vl ent.2)).length +
        (splitMid lo hi (runOf vl ent.2)).length =
        ent.2.off + ((splitLeft lo (runOf vl ent.2)).length +
          (splitMid lo hi (runOf vl ent.2)).length) := by omega
    have hlen2 : (splitRight lo hi (runOf vl ent.2)).length =
        ent.2.len - ((splitLeft lo (runOf vl ent.2)).length +
          (splitMid lo hi (runOf vl ent.2)).length) := by omega
    rw [hoff, hlen2,
      runOf_drop vl ent.2.key s.key ent.2.off
        ((splitLeft lo (runOf vl ent.2)).length + (splitMid lo hi (runOf vl ent.2)).length)
        ent.2.len]
    have hloc : ({ key := ent.2.key, off := ent.2.off, len := ent.2.len } : Location) =
        ent.2 := rfl
    rw [hloc, hdropped]

theorem leftEntries_len (vl : List Item) (ent : Int × Location) (lo : Int) :
    ((leftEntries vl ent lo).map (fun e => e.2.len)).sum =
      (splitLeft lo (runOf vl ent.2)).length := by
  unfold leftEntries
  by_cases hz : (splitLeft lo (runOf vl ent.2)).length = 0
  · rw [if_pos hz]
    simp only [List.map_nil, List.sum_nil]
    exact hz.symm
  · rw [if_neg hz]
    simp

theorem rightEntries_len (vl : List Item) (ent : Int × Location) (lo hi : Int) :
    ((rightEntries vl ent lo hi).map (fun e => e.2.len)).sum =
      (splitRight lo hi (runOf vl ent.2)).length := by
  unfold rightEntries
  rcases hh : (splitRight lo hi (runOf vl ent.2)).head? with _ | s
  · rw [List.head?_eq_none_iff.mp hh]
    rfl
  · show (List.map (fun e => e.2.len)
        [((s.key : Int),
          ({ key := s.key,
             off := ent.2.off + (splitLeft lo (runOf vl ent.2)).length + (splitMid lo hi (runOf vl ent.2)).length,
             len := (splitRight lo hi (runOf vl ent.2)).length } : Location))]).sum =
      (splitRight lo hi (runOf vl ent.2)).length
    simp

theorem deleteFromRun_spec (vl : List Item) (ent : Int × Location) (lo hi : Int)
    (hb : ent.2.off + ent.2.len ≤ vl.length)
    (hs : List.Pairwise (fun a c : Item => a.key ≤ c.key) (runOf vl ent.2)) :
    ((deleteFromRun vl ent lo hi).1.map (fun e => runOf vl e.2)).flatten =
        (runOf vl ent.2).filter (fun it => !(inRange lo hi it)) ∧
    ent.2.len = ((deleteFromRun vl ent lo hi).1.map (fun e => e.2.len)).sum +
        (deleteFromRun vl ent lo hi).2 := by
  have hrlen : (runOf vl ent.2).length = ent.2.len := runOf_length vl ent.2 hb
  have hLR := filter_splitThree lo hi (runOf vl ent.2) hs
  have hpart : splitLeft lo (runOf vl ent.2) ++
      (splitMid lo hi (runOf vl ent.2) ++ splitRight lo hi (runOf vl ent.2)) =
      runOf vl ent.2 := by
    rw [splitMid_append_right, splitLeft_append_rest]
  have hlensum : (splitLeft lo (runOf vl ent.2)).length +
      (splitMid lo hi (runOf vl ent.2)).length +
      (splitRight lo hi (runOf vl ent.2)).length = ent.2.len := by
    have h := congrArg List.length hpart
    simp only [List.length_append] at h
    omega
  by_cases hmid : (splitMid lo hi (runOf vl ent.2)).length = 0
  · have hdel : deleteFromRun vl ent lo hi = ([ent], 0) := by
      unfold deleteFromRun
      rw [if_pos hmid]
    rw [hdel]
    have hmidnil : splitMid lo hi (runOf vl ent.2) = [] := List.length_eq_zero.mp hmid
    have huntouched : splitLeft lo (runOf vl ent.2) ++ splitRight lo hi (runOf vl ent.2) =
        runOf vl ent.2 := by
      conv_rhs => rw [← hpart]
      rw [hmidnil, List.nil_append]
    constructor
    · simp only [List.map_cons, List.map_nil, List.flatten_cons, List.flatten_nil,
        List.append_nil]
      rw [hLR, huntouched]
    · simp
  · have hdel : deleteFromRun vl ent lo hi =
        (leftEntries vl ent lo ++ rightEntries vl ent lo hi,
          (splitMid lo hi (runOf vl ent.2)).length) := by
      unfold deleteFromRun
      rw [if_neg hmid]
    rw [hdel]
    constructor
    · simp only [List.map_append, List.flatten_append]
      rw [leftEntries_read vl ent lo (by omega), rightEntries_read vl ent lo hi hlensum, hLR]
    · simp only [List.map_append, List.sum_append]
      rw [leftEntries_len, rightEntries_len]
      omega

theorem bucketDelete_go (vl : List Item) (lo hi : Int) :
    ∀ idx : Index,
      (∀ ent ∈ idx, ent.2.off + ent.2.len ≤ vl.length ∧
        List.Pairwise (fun a c : Item => a.key ≤ c.key) (runOf vl ent.2)) →
      ((((idx.map (fun ent => (deleteFromRun vl ent lo hi).1)).flatten).map
          (fun e => runOf vl e.2)).flatten =
        ((idx.map (fun e => runOf vl e.2)).flatten).filter (fun it => !(inRange lo hi it))) ∧
      ((idx.map (fun e => e.2.len)).sum =
        (((idx.map (fun ent => (deleteFromRun vl ent lo hi).1)).flatten).map
          (fun e => e.2.len)).sum +
        (idx.map (fun ent => (deleteFromRun vl ent lo hi).2)).sum) := by
  intro idx
  induction idx with
  | nil => intro _; exact ⟨rfl, rfl⟩
  | cons ent t ih =>
    intro hwf
    have hent := hwf ent (List.mem_cons_self _ _)
    have hd := deleteFromRun_spec vl ent lo hi hent.1 hent.2
    have iht := ih (fun e he => hwf e (List.mem_cons_of_mem _ he))
    constructor
    · simp only [List.map_cons, List.flatten_cons, List.map_append, List.flatten_append,
        List.filter_append]
      rw [hd.1, iht.1]
    · simp only [List.map_cons, List.flatten_cons, List.map_append, List.sum_append,
        List.sum_cons]
      rw [iht.2]
      have h2 := hd.2
      omega

/-- C8: on every fork state whose index entries point at key-sorted runs
lying inside the value log, and for every pair of keys with `lo ≤ hi`,
delete excludes from all subsequent reads exactly the items whose keys lie
in the inclusive range `[lo, hi]` — the remaining read is the previous read
with those items filtered out, every other item stays readable in order —
and the returned count of removed items equals the fork's length before the
delete minus its length after. -/
theorem bucketDelete_spec (b : BucketState) (lo hi : Int) (hle : lo ≤ hi)
    (hwf : ∀ ent ∈ b.idx, ent.2.off + ent.2.len ≤ b.vlog.length ∧
      List.Pairwise (fun a c : Item => a.key ≤ c.key) (runOf b.vlog ent.2)) :
    bucketRead (bucketDelete b lo hi).1 =
      (bucketRead b).filter (fun it => !(inRange lo hi it)) ∧
    bucketLen b = bucketLen (bucketDelete b lo hi).1 + (bucketDelete b lo hi).2 := by
  have h := bucketDelete_go b.vlog lo hi b.idx hwf
  exact ⟨h.1, h.2⟩

theorem bucketDelete_spec_witness :
    ((2 : Int) ≤ 2) ∧
    bucketRead (bucketDelete
        { vlog := [⟨1, []⟩, ⟨2, []⟩, ⟨3, []⟩, ⟨4, []⟩], idx := [(1, ⟨1, 0, 4⟩)] } 2 2).1 =
      (bucketRead { vlog := [⟨1, []⟩, ⟨2, []⟩, ⟨3, []⟩, ⟨4, []⟩], idx := [(1, ⟨1, 0, 4⟩)] }).filter
        (fun it => !(inRange 2 2 it)) ∧
    bucketLen { vlog := [⟨1, []⟩, ⟨2, []⟩, ⟨3, []⟩, ⟨4, []⟩], idx := [(1, ⟨1, 0, 4⟩)] } =
      bucketLen (bucketDelete
        { vlog := [⟨1, []⟩, ⟨2, []⟩, ⟨3, []⟩, ⟨4, []⟩], idx := [(1, ⟨1, 0, 4⟩)] } 2 2).1 +
      (bucketDelete
        { vlog := [⟨1, []⟩, ⟨2, []⟩, ⟨3, []⟩, ⟨4, []⟩], idx := [(1, ⟨1, 0, 4⟩)] } 2 2).2 :=
  ⟨le_rfl,
    (bucketDelete_spec _ 2 2 le_rfl (by decide)).1,
    (bucketDelete_spec _ 2 2 le_rfl (by decide)).2⟩
